import Mathlib

/-!
# Chained hash table (`hashtables.c`)

A shallow embedding of the separate-chaining hash table of `hashtables.c`.

Modelling conventions.

* A C string (`char *`) is the list of its bytes before the terminating NUL; every
  element of such a list is a non-zero byte. `strcmp(a, b) == 0` is equality of
  the two lists. Strings are modelled by content: the buffers handed to the table
  are assumed to stay alive and unmodified while the table refers to them.
* Who owns a value buffer is tracked by the ghost field `LinkedPair.value_owned`:
  `create_pair` stores a `strdup` copy (`true`), the overwrite of line 126 stores the
  caller's pointer (`false`). `destroy_pair` calls `free` on the value pointer; on a
  pointer the table did not allocate (a string literal, as in the calls of `main`)
  that is undefined behaviour and is reported as `Fault.invalidFree`. Key buffers are
  always copies made by `create_pair`.
* A chain (`LinkedPair *`, linked through `next`) is a `List LinkedPair`; the
  empty list is the `NULL` pointer.
* `int` is `Int` restricted to `[-2^31, 2^31)`, arithmetic on it wraps
  (`wrap32`); `unsigned long` is 64 bits wide, `unsigned int` 32 bits wide.
* `storage` is the list of the bucket chains; a table object laid out by
  `create_hash_table` has exactly `capacity` of them (`HashTable.Valid`).
* A function that can read through a `NULL` pointer, or free a buffer it does not
  own, returns `Except Fault _`.
* `destroy_hash_table` yields the sequence of the nodes it has handed to `destroy_pair`.
* `malloc`/`calloc`/`strdup` never fail.
-/

namespace HashTables

/-- A C string: its bytes up to, and without, the terminating NUL. -/
abbrev CString := List UInt8

/-- The node type `LinkedPair`; the `next` pointer is the tail of the list the node sits
in. `value_owned` is ghost state: whether `value` points to the copy `create_pair` made
(`true`) or to the buffer of the caller of `hash_table_insert` (`false`). -/
structure LinkedPair where
  key : CString
  value : CString
  value_owned : Bool
deriving DecidableEq, Repr

/-- The record `HashTable`. -/
structure HashTable where
  capacity : Int
  count : Int
  storage : List (List LinkedPair)
deriving DecidableEq, Repr

/-- The ways a call can go wrong: reading through a `NULL` pointer, and calling `free`
on a buffer the table did not allocate. -/
inductive Fault where
  | nullDeref
  | invalidFree
deriving DecidableEq, Repr

deriving instance DecidableEq for Except

/-- Largest value of type `int`. -/
def INT_MAX : Int := 2147483647

/-- Smallest value of type `int`. -/
def INT_MIN : Int := -2147483648

/-- Two's-complement wrap of an integer to the range of `int`. -/
def wrap32 (x : Int) : Int := (x + 2147483648) % 4294967296 - 2147483648

/-- `create_pair`: a fresh node holding copies of `key` and `value`, with `next = NULL`. -/
def create_pair (key value : CString) : LinkedPair :=
  { key := key, value := value, value_owned := true }

/-- `destroy_pair` on a node (its call sites never pass `NULL`): `free(pair->key)`,
`free(pair->value)`, `free(pair)`. The value pointer can be freed only when it is the
copy `create_pair` made. -/
def destroy_pair (pair : LinkedPair) : Except Fault Unit :=
  if pair.value_owned then .ok () else .error .invalidFree

/-- The `while ((c = *u_str++))` loop of `hash` on an `unsigned long` accumulator:
it stops at the first zero byte, the end of the list being the terminating NUL. -/
def hash_loop (hash : Nat) : List UInt8 → Nat
  | [] => hash
  | c :: u_str =>
    if c = 0 then hash
    else hash_loop ((((hash * 32) % 18446744073709551616 + hash) % 18446744073709551616
            + c.toNat) % 18446744073709551616) u_str

/-- `hash`: djb2 of `str`, reduced modulo `max` (an `int` converted to `unsigned long`)
and returned as `unsigned int`. For `max = 0` the C division is undefined; every table
has `capacity ≥ 1`. -/
def hash (str : CString) (max : Int) : Nat :=
  (hash_loop 5381 str % (max % 18446744073709551616).toNat) % 4294967296

/-- `create_hash_table`: `none` is the `NULL` result. -/
def create_hash_table (capacity : Int) : Option HashTable :=
  if capacity < 1 then none
  else some { capacity := capacity, count := 0, storage := List.replicate capacity.toNat [] }

/-- The scan of `hash_table_insert` (lines 113-132) from the node `curr_pair`, whose
successors are `rest` (`next_pair` is the head of `rest`, or `NULL`). The overwrite
`curr_pair->value = value` of line 126 stores the caller's pointer. -/
def insert_scan (key value : CString) : LinkedPair → List LinkedPair → List LinkedPair
  | curr_pair, [] =>
    if curr_pair.key = key then [{ curr_pair with value := value, value_owned := false }]
    else [curr_pair, create_pair key value]
  | curr_pair, next_pair :: rest =>
    if curr_pair.key ≠ key then curr_pair :: insert_scan key value next_pair rest
    else if curr_pair.key = key then
      { curr_pair with value := value, value_owned := false } :: next_pair :: rest
    else [curr_pair, create_pair key value]

/-- The buffer a run of `insert_scan` leaves without any pointer to it: line 126
overwrites `curr_pair->value` without freeing the copy the node owned. `none` when
the scan loses no buffer. -/
def insert_scan_lost (key : CString) : LinkedPair → List LinkedPair → Option CString
  | curr_pair, [] =>
    if curr_pair.key = key then (if curr_pair.value_owned then some curr_pair.value else none)
    else none
  | curr_pair, next_pair :: rest =>
    if curr_pair.key ≠ key then insert_scan_lost key next_pair rest
    else if curr_pair.key = key then
      (if curr_pair.value_owned then some curr_pair.value else none)
    else none

/-- `hash_table_insert`. -/
def hash_table_insert (ht : HashTable) (key value : CString) : HashTable :=
  let index := hash key ht.capacity
  match ht.storage.getD index [] with
  | [] =>
    { ht with
      storage := ht.storage.set index [create_pair key value]
      count := wrap32 (ht.count + 1) }
  | curr_pair :: rest =>
    { ht with storage := ht.storage.set index (insert_scan key value curr_pair rest) }

/-- The scan of `hash_table_remove` (lines 159-177) over the nodes after `prev_node`:
the result is the new list of successors of the node the scan started from. A match
is spliced out and handed to `destroy_pair` (lines 170-171). -/
def remove_scan (key : CString) : List LinkedPair → Except Fault (List LinkedPair)
  | [] => .error .nullDeref
  | curr_node :: rest =>
    if curr_node.key ≠ key then
      match remove_scan key rest with
      | .ok rest' => .ok (curr_node :: rest')
      | .error e => .error e
    else if curr_node.key = key then
      match destroy_pair curr_node with
      | .ok _ => .ok rest
      | .error e => .error e
    else .ok (curr_node :: rest)

/-- `hash_table_remove`. On line 152 both operands of `strcmp` are the key of the
head node of bucket `index`; the unlinked head is handed to `destroy_pair` (line 155). -/
def hash_table_remove (ht : HashTable) (key : CString) : Except Fault HashTable :=
  let index := hash key ht.capacity
  match ht.storage.getD index [] with
  | [] => .ok ht
  | curr_node :: next =>
    let storage_index := curr_node
    if curr_node.key = storage_index.key then
      match destroy_pair curr_node with
      | .ok _ => .ok { ht with storage := ht.storage.set index next }
      | .error e => .error e
    else
      match remove_scan key next with
      | .ok next' => .ok { ht with storage := ht.storage.set index (curr_node :: next') }
      | .error e => .error e

/-- The `while (node != NULL && strcmp(node->key, key) != 0)` loop of
`hash_table_retrieve` followed by the final test: `none` is the `NULL` result. -/
def retrieve_scan (key : CString) : List LinkedPair → Option CString
  | [] => none
  | node :: rest => if node.key ≠ key then retrieve_scan key rest else some node.value

/-- `hash_table_retrieve`: `none` is the `NULL` (not found) result. -/
def hash_table_retrieve (ht : HashTable) (key : CString) : Option CString :=
  let index := hash key ht.capacity
  match ht.storage.getD index [] with
  | [] => none
  | node :: rest => retrieve_scan key (node :: rest)

/-- The inner `while (node != NULL)` loop of `hash_table_resize`: every node of the
chain is inserted through the pointer `new_ht`. -/
def resize_chain (new_ht : Option HashTable) : List LinkedPair → Except Fault (Option HashTable)
  | [] => .ok new_ht
  | node :: rest =>
    match new_ht with
    | none => .error .nullDeref
    | some t => resize_chain (some (hash_table_insert t node.key node.value)) rest

/-- The `for` loop of `hash_table_resize` over the buckets that are left to visit. -/
def resize_buckets (new_ht : Option HashTable) :
    List (List LinkedPair) → Except Fault (Option HashTable)
  | [] => .ok new_ht
  | chain :: rest =>
    match resize_chain new_ht chain with
    | .ok new_ht' => resize_buckets new_ht' rest
    | .error e => .error e

/-- Lines 250-263 of `hash_table_resize`: the pointer `new_ht` after the loops that
move the nodes of `ht` over. -/
def resize_migrate (ht : HashTable) : Except Fault (Option HashTable) :=
  resize_buckets (create_hash_table (wrap32 (ht.capacity * 2)))
    ((List.range ht.capacity.toNat).map (fun i => ht.storage.getD i []))

/-- The inner loop of `destroy_hash_table` (lines 223-229) from `curr_node`, whose
successors are `rest` (`next_node` is the head of `rest`, or `NULL`): the nodes handed
to `destroy_pair`, in the order of the calls. -/
def destroy_chain : LinkedPair → List LinkedPair → Except Fault (List LinkedPair)
  | curr_node, [] =>
    match destroy_pair curr_node with
    | .ok _ => .ok [curr_node]
    | .error e => .error e
  | curr_node, next_node :: rest =>
    match destroy_pair curr_node with
    | .ok _ =>
      match destroy_chain next_node rest with
      | .ok destroyed => .ok (curr_node :: destroyed)
      | .error e => .error e
    | .error e => .error e

/-- The `for` loop of `destroy_hash_table` over the buckets that are left to visit: a
`NULL` slot is skipped, a chain is walked by `destroy_chain`. -/
def destroy_buckets : List (List LinkedPair) → Except Fault (List LinkedPair)
  | [] => .ok []
  | [] :: buckets => destroy_buckets buckets
  | (curr_node :: rest) :: buckets =>
    match destroy_chain curr_node rest with
    | .ok destroyed =>
      match destroy_buckets buckets with
      | .ok more => .ok (destroyed ++ more)
      | .error e => .error e
    | .error e => .error e

/-- `destroy_hash_table`: the sequence of the nodes it has handed to `destroy_pair`
when it completes (the bucket array and the table record are freed last). -/
def destroy_hash_table (ht : HashTable) : Except Fault (List LinkedPair) :=
  destroy_buckets ((List.range ht.capacity.toNat).map (fun i => ht.storage.getD i []))

/-- `hash_table_resize`: the nodes are moved over (lines 250-263), the old table is
destroyed (line 266), and the pointer `new_ht` is returned. -/
def hash_table_resize (ht : HashTable) : Except Fault (Option HashTable) :=
  match resize_migrate ht with
  | .ok new_ht =>
    match destroy_hash_table ht with
    | .ok _ => .ok new_ht
    | .error e => .error e
  | .error e => .error e

/-- The memory layout `create_hash_table` establishes: `capacity` is a positive `int`
and `storage` has `capacity` slots. -/
def HashTable.Valid (ht : HashTable) : Prop :=
  1 ≤ ht.capacity ∧ ht.capacity ≤ INT_MAX ∧ ht.storage.length = ht.capacity.toNat

/-- The chain of bucket `i`. -/
def HashTable.bucket (ht : HashTable) (i : Nat) : List LinkedPair :=
  ht.storage.getD i []

/-- The tables a client can build: created, then changed by insert, remove and resize. -/
inductive Reachable : HashTable → Prop
  | create (capacity : Int) (ht : HashTable) :
      INT_MIN ≤ capacity → capacity ≤ INT_MAX →
      create_hash_table capacity = some ht → Reachable ht
  | insert (ht : HashTable) (key value : CString) :
      Reachable ht → Reachable (hash_table_insert ht key value)
  | remove (ht ht' : HashTable) (key : CString) :
      Reachable ht → hash_table_remove ht key = .ok ht' → Reachable ht'
  | resize (ht ht' : HashTable) :
      Reachable ht → hash_table_resize ht = .ok (some ht') → Reachable ht'

/-- The bytes of an ASCII string literal. -/
def str (s : String) : CString := s.toList.map (fun c => UInt8.ofNat c.toNat)

/-- The accumulator the specification describes: start at 5381 and fold
`A := (A * 33 + c) mod 2^64` over the bytes of the key. -/
def djb2 (key : CString) : Nat :=
  key.foldl (fun A c => (A * 33 + c.toNat) % 18446744073709551616) 5381

/-- The buffer `hash_table_insert(ht, key, _)` leaves without any pointer to it. -/
def hash_table_insert_lost (ht : HashTable) (key : CString) : Option CString :=
  match ht.storage.getD (hash key ht.capacity) [] with
  | [] => none
  | curr_pair :: rest => insert_scan_lost key curr_pair rest

/-- Every node of the table holds the copy of its value that `create_pair` made. -/
def AllOwned (ht : HashTable) : Prop :=
  ∀ p ∈ ht.storage.flatten, p.value_owned = true

/-- What `hash_table_insert` makes of the chain of the bucket it works on. -/
def chain_insert (key value : CString) : List LinkedPair → List LinkedPair
  | [] => [create_pair key value]
  | curr_pair :: rest => insert_scan key value curr_pair rest

/-- The keys of a chain, in chain order. -/
def keys (chain : List LinkedPair) : List CString := chain.map LinkedPair.key

/-- The invariant of the tables a client can build: the layout is valid, every node
sits in the bucket its key hashes to, and no chain holds a key twice. -/
structure Inv (ht : HashTable) : Prop where
  valid : ht.Valid
  placed : ∀ i, ∀ p ∈ ht.bucket i, hash p.key ht.capacity = i
  nodup : ∀ i, (keys (ht.bucket i)).Nodup

/-- Inserting the nodes of a list one after the other, as the loops of
`hash_table_resize` do on a table that exists. -/
def insert_all (t : HashTable) (nodes : List LinkedPair) : HashTable :=
  nodes.foldl (fun t node => hash_table_insert t node.key node.value) t

/-- The value of the last node with key `K` in a list of nodes, `init` when there is none. -/
def lookup_last (K : CString) (nodes : List LinkedPair) (init : Option CString) :
    Option CString :=
  nodes.foldl (fun acc p => if p.key = K then some p.value else acc) init

/-- The nodes with key `K`, over all the chains of a table. -/
def entries_with_key (ht : HashTable) (K : CString) : List LinkedPair :=
  ht.storage.flatten.filter (fun p => decide (p.key = K))

/-- The number of nodes reachable over all the chains of a table. -/
def entry_count (ht : HashTable) : Nat := ht.storage.flatten.length

/-- The table `create_hash_table(1)` returns. -/
def empty_1 : HashTable := { capacity := 1, count := 0, storage := [[]] }

/-- The table `create_hash_table(2)` returns. -/
def empty_2 : HashTable := { capacity := 2, count := 0, storage := [[], []] }

/-- The table of `main` before the resize: capacity 2 holding `line_1`, `line_2`, `line_3`. -/
def demo_table : HashTable :=
  hash_table_insert
    (hash_table_insert
      (hash_table_insert empty_2 (str "line_1") (str "Tiny hash table\n"))
      (str "line_2") (str "Filled beyond capacity\n"))
    (str "line_3") (str "Linked list saves the day!\n")

/-- The nodes of a table, bucket by bucket in index order, each chain in chain order. -/
def entries (ht : HashTable) : List LinkedPair := ht.storage.flatten

/-- The table `create_hash_table(1)` returns after `insert("a","1")`, `insert("b","2")`:
one chain holding both nodes. -/
def chain_ab : HashTable :=
  hash_table_insert (hash_table_insert empty_1 (str "a") (str "1")) (str "b") (str "2")

/-- The table after `create_hash_table(1)`, `insert("a","1")`, `insert("a","2")`: its one
node holds the caller's pointer to `"2"`. -/
def overwritten_a : HashTable :=
  hash_table_insert (hash_table_insert empty_1 (str "a") (str "1")) (str "a") (str "2")

/-- The table after `create_hash_table(2)`, `insert("line_1","A")`, `insert("line_1","B")`. -/
def overwritten_line_1 : HashTable :=
  hash_table_insert (hash_table_insert empty_2 (str "line_1") (str "A"))
    (str "line_1") (str "B")

/-- The table after `create_hash_table(1)`, `insert("a","1")`, `insert("b","2")`,
`insert("a","3")`: the chain `a, b`, whose head holds the caller's pointer to `"3"`. -/
def overwritten_ab : HashTable :=
  hash_table_insert chain_ab (str "a") (str "3")

/-- A table of capacity 1 whose chain holds the key `"a"` twice and whose `count` is
unrelated to its chain: laid out as a table, but not one a client can build. -/
def dup_table : HashTable :=
  { capacity := 1, count := 7,
    storage := [[create_pair (str "a") (str "1"), create_pair (str "a") (str "2")]] }

/-! ### Lists of buckets -/

theorem getD_set_eq {α : Type} (l : List α) (i j : Nat) (x d : α) :
    (l.set i x).getD j d = if i = j ∧ i < l.length then x else l.getD j d := by
  simp only [List.getD_eq_getElem?_getD, List.getElem?_set]
  by_cases hij : i = j
  · subst hij
    by_cases hi : i < l.length
    · simp [hi]
    · simp [hi, List.getElem?_eq_none (Nat.le_of_not_lt hi)]
  · simp [hij]

theorem set_getD_self {α : Type} (l : List α) (i : Nat) (d : α) :
    l.set i (l.getD i d) = l := by
  induction l generalizing i with
  | nil => rfl
  | cons a l ih =>
    cases i with
    | zero => rfl
    | succ i =>
      have h := ih i
      simp only [List.getD_eq_getElem?_getD] at h
      simp [List.set, h]

theorem range_map_getD {α : Type} (l : List α) (d : α) :
    (List.range l.length).map (fun i => l.getD i d) = l := by
  apply List.ext_getElem
  · simp
  · intro i h1 h2
    simp [List.getD_eq_getElem?_getD, List.getElem?_eq_getElem h2]

/-! ### The hash function -/

theorem hash_loop_eq_foldl (key : CString) (hkey : ∀ c ∈ key, c ≠ 0) (A : Nat)
    (hA : A < 18446744073709551616) :
    hash_loop A key
      = key.foldl (fun A c => (A * 33 + c.toNat) % 18446744073709551616) A := by
  induction key generalizing A with
  | nil => rfl
  | cons c cs ih =>
    have hc : c ≠ 0 := hkey c (List.mem_cons_self _ _)
    have hcs : ∀ d ∈ cs, d ≠ 0 := fun d hd => hkey d (List.mem_cons_of_mem _ hd)
    have hstep : (((A * 32) % 18446744073709551616 + A) % 18446744073709551616
        + c.toNat) % 18446744073709551616 = (A * 33 + c.toNat) % 18446744073709551616 := by
      omega
    simp only [hash_loop, if_neg hc, List.foldl_cons, hstep]
    exact ih hcs _ (Nat.mod_lt _ (by decide))

theorem hash_eq_mod (str : CString) (max : Int) (h1 : 1 ≤ max) (h2 : max ≤ INT_MAX) :
    hash str max = hash_loop 5381 str % max.toNat := by
  unfold INT_MAX at h2
  have hm : (max % 18446744073709551616).toNat = max.toNat := by
    rw [Int.emod_eq_of_lt (by omega) (by omega)]
  have hpos : 0 < max.toNat := by omega
  have hlt : hash_loop 5381 str % max.toNat < max.toNat := Nat.mod_lt _ hpos
  unfold hash
  rw [hm]
  exact Nat.mod_eq_of_lt (by omega)

theorem hash_lt (str : CString) (max : Int) (h1 : 1 ≤ max) (h2 : max ≤ INT_MAX) :
    hash str max < max.toNat := by
  rw [hash_eq_mod str max h1 h2]
  exact Nat.mod_lt _ (by omega)

/-! ### Chains -/

theorem retrieve_scan_insert_scan_same (key value : CString) (curr : LinkedPair)
    (rest : List LinkedPair) :
    retrieve_scan key (insert_scan key value curr rest) = some value := by
  induction rest generalizing curr with
  | nil =>
    by_cases h : curr.key = key <;> simp [insert_scan, retrieve_scan, create_pair, h]
  | cons next rest ih =>
    by_cases h : curr.key = key
    · simp [insert_scan, retrieve_scan, h]
    · simp [insert_scan, retrieve_scan, h, ih]

theorem retrieve_scan_insert_scan_other (key value key' : CString) (hne : key' ≠ key)
    (curr : LinkedPair) (rest : List LinkedPair) :
    retrieve_scan key' (insert_scan key value curr rest) = retrieve_scan key' (curr :: rest) := by
  have hk : ¬ key = key' := fun e => hne e.symm
  induction rest generalizing curr with
  | nil =>
    by_cases h : curr.key = key
    · simp [insert_scan, retrieve_scan, h, hk]
    · by_cases h' : curr.key = key'
      · simp [insert_scan, retrieve_scan, create_pair, h', hne]
      · simp [insert_scan, retrieve_scan, create_pair, h, h', hk]
  | cons next rest ih =>
    by_cases h : curr.key = key
    · simp [insert_scan, retrieve_scan, h, hk]
    · by_cases h' : curr.key = key'
      · simp [insert_scan, retrieve_scan, h', hne]
      · simp only [insert_scan, ne_eq, h, not_false_eq_true, if_true, retrieve_scan, h']
        rw [ih next]
        simp [retrieve_scan]

/-- The keys of a chain after the insert scan: unchanged when the key was there,
extended by the key at the tail otherwise. -/
theorem insert_scan_keys (key value : CString) (curr : LinkedPair) (rest : List LinkedPair) :
    (insert_scan key value curr rest).map LinkedPair.key
      = if key ∈ (curr :: rest).map LinkedPair.key then (curr :: rest).map LinkedPair.key
        else (curr :: rest).map LinkedPair.key ++ [key] := by
  induction rest generalizing curr with
  | nil =>
    by_cases h : curr.key = key
    · simp [insert_scan, h]
    · have h' : ¬ key = curr.key := fun e => h e.symm
      simp [insert_scan, create_pair, h, h']
  | cons next rest ih =>
    by_cases h : curr.key = key
    · simp [insert_scan, h]
    · have h' : ¬ key = curr.key := fun e => h e.symm
      simp only [insert_scan, ne_eq, h, not_false_eq_true, if_true, List.map_cons, ih next,
        List.mem_cons, h', false_or]
      split <;> simp

theorem retrieve_scan_eq_none (key : CString) (chain : List LinkedPair) :
    retrieve_scan key chain = none ↔ ∀ p ∈ chain, p.key ≠ key := by
  induction chain with
  | nil => simp [retrieve_scan]
  | cons node rest ih =>
    by_cases h : node.key = key <;> simp [retrieve_scan, h, ih]

theorem retrieve_scan_first (key : CString) (pre : List LinkedPair) (p : LinkedPair)
    (post : List LinkedPair) (hp : p.key = key) (hpre : ∀ q ∈ pre, q.key ≠ key) :
    retrieve_scan key (pre ++ p :: post) = some p.value := by
  induction pre with
  | nil => simp [retrieve_scan, hp]
  | cons q pre ih =>
    have hq : ¬ q.key = key := hpre q (List.mem_cons_self _ _)
    simp only [List.cons_append, retrieve_scan, ne_eq, hq, not_false_eq_true, if_true]
    exact ih (fun r hr => hpre r (List.mem_cons_of_mem _ hr))

theorem chain_insert_keys (key value : CString) (chain : List LinkedPair) :
    keys (chain_insert key value chain)
      = if key ∈ keys chain then keys chain else keys chain ++ [key] := by
  cases chain with
  | nil => simp [chain_insert, keys, create_pair]
  | cons curr rest => exact insert_scan_keys key value curr rest

theorem retrieve_scan_chain_insert_same (key value : CString) (chain : List LinkedPair) :
    retrieve_scan key (chain_insert key value chain) = some value := by
  cases chain with
  | nil => simp [chain_insert, retrieve_scan, create_pair]
  | cons curr rest => exact retrieve_scan_insert_scan_same key value curr rest

theorem retrieve_scan_chain_insert_other (key value key' : CString) (hne : key' ≠ key)
    (chain : List LinkedPair) :
    retrieve_scan key' (chain_insert key value chain) = retrieve_scan key' chain := by
  cases chain with
  | nil =>
    have hk : ¬ key = key' := fun e => hne e.symm
    simp [chain_insert, retrieve_scan, create_pair, hk]
  | cons curr rest => exact retrieve_scan_insert_scan_other key value key' hne curr rest

/-! ### Tables -/

theorem retrieve_eq_scan (ht : HashTable) (key : CString) :
    hash_table_retrieve ht key = retrieve_scan key (ht.bucket (hash key ht.capacity)) := by
  unfold hash_table_retrieve HashTable.bucket
  cases h : ht.storage.getD (hash key ht.capacity) [] <;> simp only [h, retrieve_scan]

theorem insert_capacity (ht : HashTable) (key value : CString) :
    (hash_table_insert ht key value).capacity = ht.capacity := by
  unfold hash_table_insert
  cases h : ht.storage.getD (hash key ht.capacity) [] <;> simp only [h]

theorem insert_storage (ht : HashTable) (key value : CString) :
    (hash_table_insert ht key value).storage
      = ht.storage.set (hash key ht.capacity)
          (chain_insert key value (ht.bucket (hash key ht.capacity))) := by
  unfold hash_table_insert HashTable.bucket
  cases h : ht.storage.getD (hash key ht.capacity) [] <;> simp only [h, chain_insert]

theorem insert_count (ht : HashTable) (key value : CString) :
    (hash_table_insert ht key value).count
      = if ht.bucket (hash key ht.capacity) = [] then wrap32 (ht.count + 1) else ht.count := by
  unfold hash_table_insert HashTable.bucket
  cases h : ht.storage.getD (hash key ht.capacity) [] <;> simp only [h] <;> simp

theorem insert_valid (ht : HashTable) (key value : CString) (hv : ht.Valid) :
    (hash_table_insert ht key value).Valid := by
  obtain ⟨h1, h2, h3⟩ := hv
  refine ⟨?_, ?_, ?_⟩
  · rw [insert_capacity]; exact h1
  · rw [insert_capacity]; exact h2
  · rw [insert_capacity, insert_storage, List.length_set]; exact h3

theorem hash_lt_length (ht : HashTable) (hv : ht.Valid) (key : CString) :
    hash key ht.capacity < ht.storage.length := by
  rw [hv.2.2]
  exact hash_lt key ht.capacity hv.1 hv.2.1

theorem insert_bucket (ht : HashTable) (key value : CString) (hv : ht.Valid) (j : Nat) :
    (hash_table_insert ht key value).bucket j
      = if hash key ht.capacity = j then chain_insert key value (ht.bucket j)
        else ht.bucket j := by
  have hlt := hash_lt_length ht hv key
  unfold HashTable.bucket
  rw [insert_storage, getD_set_eq]
  by_cases hj : hash key ht.capacity = j
  · subst hj
    rw [if_pos ⟨rfl, hlt⟩, if_pos rfl]
    rfl
  · rw [if_neg (fun h => hj h.1), if_neg hj]

/-- Map law, same key: a lookup after an insert finds the inserted value. -/
theorem retrieve_insert_same (ht : HashTable) (key value : CString) (hv : ht.Valid) :
    hash_table_retrieve (hash_table_insert ht key value) key = some value := by
  rw [retrieve_eq_scan, insert_capacity, insert_bucket ht key value hv, if_pos rfl]
  exact retrieve_scan_chain_insert_same key value _

/-- Map law, other key: a lookup of another key is unaffected by an insert. -/
theorem retrieve_insert_other (ht : HashTable) (key value key' : CString) (hv : ht.Valid)
    (hne : key' ≠ key) :
    hash_table_retrieve (hash_table_insert ht key value) key' = hash_table_retrieve ht key' := by
  rw [retrieve_eq_scan, retrieve_eq_scan, insert_capacity, insert_bucket ht key value hv]
  by_cases hj : hash key ht.capacity = hash key' ht.capacity
  · rw [if_pos hj]
    exact retrieve_scan_chain_insert_other key value key' hne _
  · rw [if_neg hj]

theorem insert_inv (ht : HashTable) (key value : CString) (hi : Inv ht) :
    Inv (hash_table_insert ht key value) := by
  refine ⟨insert_valid ht key value hi.valid, ?_, ?_⟩
  · intro i p hp
    rw [insert_capacity]
    rw [insert_bucket ht key value hi.valid] at hp
    by_cases hj : hash key ht.capacity = i
    · rw [if_pos hj] at hp
      have hk : p.key ∈ keys (chain_insert key value (ht.bucket i)) :=
        List.mem_map_of_mem _ hp
      rw [chain_insert_keys] at hk
      have hcases : p.key ∈ keys (ht.bucket i) ∨ p.key = key := by
        split at hk
        · exact Or.inl hk
        · rcases List.mem_append.1 hk with h | h
          · exact Or.inl h
          · exact Or.inr (by simpa using h)
      rcases hcases with h | h
      · obtain ⟨q, hq, hqk⟩ := List.mem_map.1 h
        rw [← hqk]
        exact hi.placed i q hq
      · rw [h]; exact hj
    · rw [if_neg hj] at hp
      exact hi.placed i p hp
  · intro i
    rw [insert_bucket ht key value hi.valid]
    by_cases hj : hash key ht.capacity = i
    · rw [if_pos hj, chain_insert_keys]
      split
      · exact hi.nodup i
      · rename_i hnot
        exact List.Nodup.append (hi.nodup i) (List.nodup_singleton _)
          (by
            intro a ha hb
            rw [List.mem_singleton] at hb
            exact hnot (hb ▸ ha))
    · rw [if_neg hj]
      exact hi.nodup i

theorem create_eq (capacity : Int) (h1 : 1 ≤ capacity) :
    create_hash_table capacity
      = some { capacity := capacity, count := 0,
               storage := List.replicate capacity.toNat [] } := by
  unfold create_hash_table
  rw [if_neg (by omega)]

theorem replicate_getD_nil (n i : Nat) :
    (List.replicate n ([] : List LinkedPair)).getD i [] = [] := by
  rw [List.getD_eq_getElem?_getD]
  by_cases h : i < n
  · simp [List.getElem?_replicate, h]
  · simp [List.getElem?_replicate, h]

theorem create_inv (capacity : Int) (ht : HashTable) (h2 : capacity ≤ INT_MAX)
    (hc : create_hash_table capacity = some ht) : Inv ht := by
  unfold create_hash_table at hc
  by_cases h1 : capacity < 1
  · rw [if_pos h1] at hc; cases hc
  · rw [if_neg h1] at hc
    cases hc
    refine ⟨⟨by simpa using h1, h2, by simp⟩, ?_, ?_⟩
    · intro i p hp
      simp only [HashTable.bucket, replicate_getD_nil] at hp
      cases hp
    · intro i
      simp [HashTable.bucket, replicate_getD_nil, keys]

/-- The head comparison of `hash_table_remove` always succeeds, so the outcome of the
call is settled by the head branch: an empty bucket leaves the table as it is, and
otherwise the first node of the bucket, whatever its key is, is unlinked and handed to
`destroy_pair`. -/
theorem remove_eq (ht : HashTable) (key : CString) :
    hash_table_remove ht key
      = match ht.bucket (hash key ht.capacity) with
        | [] => .ok ht
        | curr_node :: next =>
          match destroy_pair curr_node with
          | .ok _ => .ok { ht with storage := ht.storage.set (hash key ht.capacity) next }
          | .error e => .error e := by
  unfold hash_table_remove HashTable.bucket
  cases h : ht.storage.getD (hash key ht.capacity) [] with
  | nil => simp only [h]
  | cons curr next => simp only [h, if_true]

/-- A call of `hash_table_remove` that completes has dropped the first node of the
bucket the key hashes to and changed nothing else. -/
theorem remove_ok (ht ht' : HashTable) (key : CString)
    (hr : hash_table_remove ht key = .ok ht') :
    ht' = { ht with
            storage := ht.storage.set (hash key ht.capacity)
              (ht.bucket (hash key ht.capacity)).tail } := by
  rw [remove_eq] at hr
  cases hb : ht.bucket (hash key ht.capacity) with
  | nil =>
    rw [hb] at hr
    have hs := set_getD_self ht.storage (hash key ht.capacity) []
    unfold HashTable.bucket at hb
    rw [hb] at hs
    injection hr with hr
    rw [← hr, List.tail_nil, hs]
  | cons head next =>
    rw [hb] at hr
    cases ho : head.value_owned with
    | true =>
      simp only [destroy_pair, ho, if_true] at hr
      injection hr with hr
      rw [← hr, List.tail_cons]
    | false =>
      simp [destroy_pair, ho] at hr

theorem remove_inv (ht ht' : HashTable) (key : CString) (hi : Inv ht)
    (hr : hash_table_remove ht key = .ok ht') : Inv ht' := by
  rw [remove_ok ht ht' key hr]
  have hb : ∀ j, List.Sublist
      (HashTable.bucket { ht with
          storage := ht.storage.set (hash key ht.capacity)
            (ht.bucket (hash key ht.capacity)).tail } j) (ht.bucket j) := by
    intro j
    simp only [HashTable.bucket, getD_set_eq]
    split
    · rename_i h
      rw [← h.1]
      exact List.tail_sublist _
    · exact List.Sublist.refl _
  refine ⟨⟨hi.valid.1, hi.valid.2.1, ?_⟩, ?_, ?_⟩
  · simp only [List.length_set]
    exact hi.valid.2.2
  · intro i p hp
    exact hi.placed i p ((hb i).subset hp)
  · intro i
    exact List.Nodup.sublist ((hb i).map _) (hi.nodup i)

theorem insert_all_inv (nodes : List LinkedPair) (t : HashTable) (hi : Inv t) :
    Inv (insert_all t nodes) := by
  induction nodes generalizing t with
  | nil => exact hi
  | cons node rest ih => exact ih _ (insert_inv t node.key node.value hi)

theorem insert_all_capacity (nodes : List LinkedPair) (t : HashTable) :
    (insert_all t nodes).capacity = t.capacity := by
  induction nodes generalizing t with
  | nil => rfl
  | cons node rest ih =>
    simp only [insert_all, List.foldl_cons] at ih ⊢
    rw [ih, insert_capacity]

theorem insert_all_append (t : HashTable) (xs ys : List LinkedPair) :
    insert_all t (xs ++ ys) = insert_all (insert_all t xs) ys := by
  simp [insert_all, List.foldl_append]

theorem resize_chain_some (t : HashTable) (chain : List LinkedPair) :
    resize_chain (some t) chain = .ok (some (insert_all t chain)) := by
  induction chain generalizing t with
  | nil => rfl
  | cons node rest ih => simp only [resize_chain, ih]; rfl

theorem resize_buckets_some (t : HashTable) (buckets : List (List LinkedPair)) :
    resize_buckets (some t) buckets = .ok (some (insert_all t buckets.flatten)) := by
  induction buckets generalizing t with
  | nil => rfl
  | cons chain rest ih =>
    simp only [resize_buckets, resize_chain_some, ih, List.flatten_cons, insert_all_append]

theorem resize_chain_none (chain : List LinkedPair) (r : HashTable) :
    resize_chain none chain ≠ .ok (some r) := by
  cases chain <;> simp [resize_chain]

theorem resize_buckets_none (buckets : List (List LinkedPair)) (r : HashTable) :
    resize_buckets none buckets ≠ .ok (some r) := by
  induction buckets with
  | nil => simp [resize_buckets]
  | cons chain rest ih =>
    cases chain with
    | nil => simpa [resize_buckets, resize_chain] using ih
    | cons node more => simp [resize_buckets, resize_chain]

theorem wrap32_range (x : Int) : INT_MIN ≤ wrap32 x ∧ wrap32 x ≤ INT_MAX := by
  unfold wrap32 INT_MIN INT_MAX
  omega

/-! ### Teardown -/

theorem destroy_chain_eq (curr : LinkedPair) (rest : List LinkedPair) :
    destroy_chain curr rest
      = if (curr :: rest).all (fun p => p.value_owned) then .ok (curr :: rest)
        else .error .invalidFree := by
  induction rest generalizing curr with
  | nil =>
    cases ho : curr.value_owned <;> simp [destroy_chain, destroy_pair, ho]
  | cons next rest ih =>
    cases ho : curr.value_owned
    · simp [destroy_chain, destroy_pair, ho]
    · by_cases hall : (next :: rest).all (fun p => p.value_owned) = true
      · have hrec := ih next
        rw [if_pos hall] at hrec
        simp only [List.all_cons] at hall
        simp [destroy_chain, destroy_pair, ho, hrec, hall]
      · have hrec := ih next
        rw [if_neg hall] at hrec
        simp only [List.all_cons] at hall
        simp [destroy_chain, destroy_pair, ho, hrec, hall]

theorem destroy_buckets_eq (buckets : List (List LinkedPair)) :
    destroy_buckets buckets
      = if buckets.flatten.all (fun p => p.value_owned) then .ok buckets.flatten
        else .error .invalidFree := by
  induction buckets with
  | nil => rfl
  | cons chain buckets ih =>
    cases chain with
    | nil => simpa [destroy_buckets] using ih
    | cons curr rest =>
      simp only [destroy_buckets, destroy_chain_eq, ih, List.flatten_cons, List.all_append]
      by_cases h1 : (curr :: rest).all (fun p => p.value_owned) = true
      · by_cases h2 : buckets.flatten.all (fun p => p.value_owned) = true
        · simp [h1, h2]
        · simp [h1, h2]
      · simp [h1]

theorem allOwned_iff (ht : HashTable) :
    AllOwned ht ↔ ht.storage.flatten.all (fun p => p.value_owned) = true := by
  unfold AllOwned
  rw [List.all_eq_true]

/-- Teardown of a table laid out with `capacity` slots completes exactly when every
node owns its value, and then it has destroyed the nodes bucket by bucket, each chain
in chain order; otherwise it ends in `free` on a buffer the table does not own. -/
theorem destroy_eq (ht : HashTable) (hlen : ht.storage.length = ht.capacity.toNat) :
    destroy_hash_table ht
      = if ht.storage.flatten.all (fun p => p.value_owned) then .ok ht.storage.flatten
        else .error .invalidFree := by
  unfold destroy_hash_table
  rw [← hlen, range_map_getD, destroy_buckets_eq]

theorem destroy_owned (ht : HashTable) (hlen : ht.storage.length = ht.capacity.toNat)
    (ho : AllOwned ht) : destroy_hash_table ht = .ok ht.storage.flatten := by
  rw [destroy_eq ht hlen, if_pos ((allOwned_iff ht).1 ho)]

theorem destroy_not_owned (ht : HashTable) (hlen : ht.storage.length = ht.capacity.toNat)
    (ho : ¬ AllOwned ht) : destroy_hash_table ht = .error .invalidFree := by
  rw [destroy_eq ht hlen, if_neg (fun h => ho ((allOwned_iff ht).2 h))]

/-! ### Resizing -/

/-- A migration that yields a table has built it by inserting every node of the old
table, bucket by bucket, into a fresh table of the wrapped doubled capacity. -/
theorem migrate_some (ht ht' : HashTable) (hv : ht.Valid)
    (hr : resize_migrate ht = .ok (some ht')) :
    1 ≤ wrap32 (ht.capacity * 2) ∧
    ht' = insert_all { capacity := wrap32 (ht.capacity * 2), count := 0,
                       storage := List.replicate (wrap32 (ht.capacity * 2)).toNat [] }
            ht.storage.flatten := by
  unfold resize_migrate at hr
  rw [← hv.2.2, range_map_getD] at hr
  by_cases h1 : 1 ≤ wrap32 (ht.capacity * 2)
  · rw [create_eq _ h1, resize_buckets_some] at hr
    refine ⟨h1, ?_⟩
    injection hr with hr
    injection hr with hr
    exact hr.symm
  · exfalso
    have hn : create_hash_table (wrap32 (ht.capacity * 2)) = none := by
      unfold create_hash_table
      rw [if_pos (by omega)]
    rw [hn] at hr
    exact resize_buckets_none _ _ hr

/-- A resize that completes has completed both of its parts: the migration, whose
result it returns, and the teardown of the old table. -/
theorem resize_ok (ht : HashTable) (r : Option HashTable)
    (hr : hash_table_resize ht = .ok r) :
    resize_migrate ht = .ok r ∧ ∃ destroyed, destroy_hash_table ht = .ok destroyed := by
  unfold hash_table_resize at hr
  cases hm : resize_migrate ht with
  | error e => rw [hm] at hr; cases hr
  | ok new_ht =>
    rw [hm] at hr
    cases hd : destroy_hash_table ht with
    | error e => rw [hd] at hr; cases hr
    | ok destroyed =>
      rw [hd] at hr
      injection hr with hr
      exact ⟨by rw [hr], destroyed, rfl⟩

theorem resize_some (ht ht' : HashTable) (hv : ht.Valid)
    (hr : hash_table_resize ht = .ok (some ht')) :
    1 ≤ wrap32 (ht.capacity * 2) ∧
    ht' = insert_all { capacity := wrap32 (ht.capacity * 2), count := 0,
                       storage := List.replicate (wrap32 (ht.capacity * 2)).toNat [] }
            ht.storage.flatten :=
  migrate_some ht ht' hv (resize_ok ht _ hr).1

/-- A resize that completes was run on a table all of whose nodes own their value. -/
theorem resize_ok_owned (ht : HashTable) (r : Option HashTable) (hv : ht.Valid)
    (hr : hash_table_resize ht = .ok r) : AllOwned ht := by
  obtain ⟨_, destroyed, hd⟩ := resize_ok ht r hr
  by_contra hno
  rw [destroy_not_owned ht hv.2.2 hno] at hd
  cases hd

theorem resize_inv (ht ht' : HashTable) (hi : Inv ht)
    (hr : hash_table_resize ht = .ok (some ht')) : Inv ht' := by
  obtain ⟨h1, rfl⟩ := resize_some ht ht' hi.valid hr
  apply insert_all_inv
  exact create_inv _ _ (wrap32_range _).2 (create_eq _ h1)

/-- Every table a client can build satisfies the invariant. -/
theorem reachable_inv (ht : HashTable) (h : Reachable ht) : Inv ht := by
  induction h with
  | create capacity ht _ h2 hc => exact create_inv capacity ht h2 hc
  | insert ht key value _ ih => exact insert_inv ht key value ih
  | remove ht ht' key _ hr ih => exact remove_inv ht ht' key ih hr
  | resize ht ht' _ hr ih => exact resize_inv ht ht' ih hr

/-! ### Lookups after a run of inserts -/

theorem retrieve_insert (t : HashTable) (k v K : CString) (hv : t.Valid) :
    hash_table_retrieve (hash_table_insert t k v) K
      = if k = K then some v else hash_table_retrieve t K := by
  by_cases h : k = K
  · subst h
    rw [if_pos rfl]
    exact retrieve_insert_same t k v hv
  · rw [if_neg h]
    exact retrieve_insert_other t k v K hv (fun e => h e.symm)

theorem insert_all_valid (nodes : List LinkedPair) (t : HashTable) (hv : t.Valid) :
    (insert_all t nodes).Valid := by
  induction nodes generalizing t with
  | nil => exact hv
  | cons node rest ih => exact ih _ (insert_valid t node.key node.value hv)

theorem retrieve_insert_all (nodes : List LinkedPair) (t : HashTable) (K : CString)
    (hv : t.Valid) :
    hash_table_retrieve (insert_all t nodes) K
      = lookup_last K nodes (hash_table_retrieve t K) := by
  induction nodes generalizing t with
  | nil => rfl
  | cons node rest ih =>
    have h := ih (hash_table_insert t node.key node.value) (insert_valid t _ _ hv)
    rw [retrieve_insert t node.key node.value K hv] at h
    simpa [insert_all, lookup_last] using h

theorem lookup_last_filter (K : CString) (nodes : List LinkedPair) (init : Option CString) :
    lookup_last K nodes init
      = lookup_last K (nodes.filter (fun p => decide (p.key = K))) init := by
  induction nodes generalizing init with
  | nil => rfl
  | cons p rest ih =>
    by_cases h : p.key = K
    · simpa [lookup_last, List.filter_cons, h] using ih (some p.value)
    · simpa [lookup_last, List.filter_cons, h] using ih init

theorem lookup_last_absent (K : CString) (nodes : List LinkedPair) (init : Option CString)
    (h : K ∉ keys nodes) : lookup_last K nodes init = init := by
  induction nodes generalizing init with
  | nil => rfl
  | cons p rest ih =>
    have hp : ¬ p.key = K := fun e => h (by simp [keys, ← e])
    have hrest : K ∉ keys rest := fun e => h (by
      simp only [keys, List.map_cons, List.mem_cons]
      exact Or.inr e)
    simpa [lookup_last, hp] using ih init hrest

theorem lookup_last_eq_retrieve_scan (K : CString) (chain : List LinkedPair)
    (hnd : (keys chain).Nodup) : lookup_last K chain none = retrieve_scan K chain := by
  induction chain with
  | nil => rfl
  | cons p rest ih =>
    have hnd' : p.key ∉ keys rest ∧ (keys rest).Nodup := by
      simpa [keys] using hnd
    by_cases h : p.key = K
    · have hK : K ∉ keys rest := h ▸ hnd'.1
      have := lookup_last_absent K rest (some p.value) hK
      simpa [lookup_last, retrieve_scan, h] using this
    · have := ih hnd'.2
      simpa [lookup_last, retrieve_scan, h] using this

/-- When every node with key `K` sits in bucket `i`, the nodes with key `K` over all
the buckets are those of bucket `i`. -/
theorem filter_flatten_bucket (K : CString) (l : List (List LinkedPair)) (i : Nat)
    (h : ∀ j, ∀ p ∈ l.getD j [], p.key = K → j = i) :
    l.flatten.filter (fun p => decide (p.key = K))
      = (l.getD i []).filter (fun p => decide (p.key = K)) := by
  induction l generalizing i with
  | nil => rfl
  | cons a l ih =>
    have hshift : ∀ i', (∀ j, ∀ p ∈ l.getD j [], p.key = K → j = i') →
        l.flatten.filter (fun p => decide (p.key = K))
          = (l.getD i' []).filter (fun p => decide (p.key = K)) := fun i' h' => ih i' h'
    cases i with
    | zero =>
      have hnone : l.flatten.filter (fun p => decide (p.key = K)) = [] := by
        have h0 := hshift l.length (by
          intro j p hp hk
          have := h (j + 1) p (by simpa using hp) hk
          omega)
        rw [h0]
        simp [List.getD_eq_getElem?_getD]
      simp [List.flatten_cons, List.filter_append, hnone]
    | succ i' =>
      have ha : a.filter (fun p => decide (p.key = K)) = [] := by
        rw [List.filter_eq_nil_iff]
        intro p hp hk
        have := h 0 p (by simpa using hp) (by simpa using hk)
        omega
      have hl := hshift i' (by
        intro j p hp hk
        have := h (j + 1) p (by simpa using hp) hk
        omega)
      simp [List.flatten_cons, List.filter_append, ha, hl]

theorem inv_filter_flatten (ht : HashTable) (hi : Inv ht) (K : CString) :
    ht.storage.flatten.filter (fun p => decide (p.key = K))
      = (ht.bucket (hash K ht.capacity)).filter (fun p => decide (p.key = K)) := by
  apply filter_flatten_bucket
  intro j p hp hk
  rw [← hk]
  exact (hi.placed j p hp).symm

/-- In a table that satisfies the invariant, a lookup of `K` sees the last node with
key `K` of the bucket-by-bucket listing of the table. -/
theorem inv_lookup_last (ht : HashTable) (hi : Inv ht) (K : CString) :
    lookup_last K ht.storage.flatten none = hash_table_retrieve ht K := by
  rw [retrieve_eq_scan, lookup_last_filter, inv_filter_flatten ht hi K, ← lookup_last_filter]
  exact lookup_last_eq_retrieve_scan K _ (hi.nodup _)

theorem wrap32_id (x : Int) (h1 : INT_MIN ≤ x) (h2 : x ≤ INT_MAX) : wrap32 x = x := by
  unfold wrap32
  unfold INT_MIN at h1
  unfold INT_MAX at h2
  omega

theorem chain_insert_ne_nil (key value : CString) (chain : List LinkedPair) :
    chain_insert key value chain ≠ [] := by
  intro h
  have hk := congrArg keys h
  rw [chain_insert_keys] at hk
  split at hk
  · rename_i hmem
    rw [hk] at hmem
    simp [keys] at hmem
  · simp [keys] at hk

theorem migrate_eq (ht : HashTable) (hv : ht.Valid) (h1 : 1 ≤ wrap32 (ht.capacity * 2)) :
    resize_migrate ht
      = .ok (some (insert_all { capacity := wrap32 (ht.capacity * 2), count := 0,
                                storage := List.replicate (wrap32 (ht.capacity * 2)).toNat [] }
                    ht.storage.flatten)) := by
  unfold resize_migrate
  rw [← hv.2.2, range_map_getD, create_eq _ h1, resize_buckets_some]

theorem resize_eq (ht : HashTable) (hv : ht.Valid) (h1 : 1 ≤ wrap32 (ht.capacity * 2))
    (ho : AllOwned ht) :
    hash_table_resize ht
      = .ok (some (insert_all { capacity := wrap32 (ht.capacity * 2), count := 0,
                                storage := List.replicate (wrap32 (ht.capacity * 2)).toNat [] }
                    ht.storage.flatten)) := by
  unfold hash_table_resize
  rw [migrate_eq ht hv h1, destroy_owned ht hv.2.2 ho]

theorem retrieve_fresh (capacity : Int) (K : CString) :
    hash_table_retrieve
      { capacity := capacity, count := 0, storage := List.replicate capacity.toNat [] } K
      = none := by
  rw [retrieve_eq_scan]
  simp only [HashTable.bucket, replicate_getD_nil, retrieve_scan]

/-! ### Uniqueness of keys -/

theorem filter_key_single (chain : List LinkedPair) (hnd : (keys chain).Nodup)
    (p : LinkedPair) (hp : p ∈ chain) :
    chain.filter (fun q => decide (q.key = p.key)) = [p] := by
  induction chain with
  | nil => cases hp
  | cons c rest ih =>
    have hnd' : c.key ∉ keys rest ∧ (keys rest).Nodup := by
      simpa [keys] using hnd
    rcases List.mem_cons.1 hp with h | h
    · subst h
      have hrest : rest.filter (fun q => decide (q.key = p.key)) = [] := by
        rw [List.filter_eq_nil_iff]
        intro q hq hk
        exact hnd'.1 (List.mem_map.2 ⟨q, hq, by simpa using hk⟩)
      rw [List.filter_cons, if_pos (by simp), hrest]
    · have hc : ¬ c.key = p.key := fun e =>
        hnd'.1 (List.mem_map.2 ⟨p, h, e.symm⟩)
      rw [List.filter_cons, if_neg (by simpa using hc)]
      exact ih hnd'.2 h

theorem mem_flatten_bucket (ht : HashTable) (p : LinkedPair) (hp : p ∈ ht.storage.flatten) :
    ∃ i, p ∈ ht.bucket i := by
  obtain ⟨l, hl, hpl⟩ := List.mem_flatten.1 hp
  obtain ⟨i, hi, rfl⟩ := List.getElem_of_mem hl
  refine ⟨i, ?_⟩
  simpa [HashTable.bucket, List.getD_eq_getElem?_getD, List.getElem?_eq_getElem hi] using hpl

theorem bucket_subset_flatten (ht : HashTable) (i : Nat) (p : LinkedPair)
    (hp : p ∈ ht.bucket i) : p ∈ ht.storage.flatten := by
  unfold HashTable.bucket at hp
  rw [List.getD_eq_getElem?_getD] at hp
  by_cases hi : i < ht.storage.length
  · rw [List.getElem?_eq_getElem hi] at hp
    exact List.mem_flatten.2 ⟨_, List.getElem_mem hi, by simpa using hp⟩
  · rw [List.getElem?_eq_none (Nat.le_of_not_lt hi)] at hp
    simp at hp

/-! ### The chain after an insert -/

theorem chain_insert_cons (key value : CString) (q : LinkedPair) (chain : List LinkedPair) :
    chain_insert key value (q :: chain)
      = if q.key = key then { q with value := value, value_owned := false } :: chain
        else q :: chain_insert key value chain := by
  cases chain with
  | nil =>
    by_cases h : q.key = key <;> simp [chain_insert, insert_scan, h]
  | cons next rest =>
    by_cases h : q.key = key <;> simp [chain_insert, insert_scan, h]

theorem chain_insert_absent (key value : CString) (chain : List LinkedPair)
    (h : key ∉ keys chain) :
    chain_insert key value chain = chain ++ [create_pair key value] := by
  induction chain with
  | nil => rfl
  | cons q chain ih =>
    have hq : ¬ q.key = key := fun e => h (by simp [keys, ← e])
    have hrest : key ∉ keys chain := fun e => h (by
      simp only [keys, List.map_cons, List.mem_cons]
      exact Or.inr e)
    rw [chain_insert_cons, if_neg hq, ih hrest]
    rfl

theorem chain_insert_present (key value : CString) (pre : List LinkedPair) (p : LinkedPair)
    (post : List LinkedPair) (hp : p.key = key) (hpre : key ∉ keys pre) :
    chain_insert key value (pre ++ p :: post)
      = pre ++ { p with value := value, value_owned := false } :: post := by
  induction pre with
  | nil =>
    rw [List.nil_append, chain_insert_cons, if_pos hp]
    rfl
  | cons q pre ih =>
    have hq : ¬ q.key = key := fun e => hpre (by simp [keys, ← e])
    have hrest : key ∉ keys pre := fun e => hpre (by
      simp only [keys, List.map_cons, List.mem_cons]
      exact Or.inr e)
    rw [List.cons_append, chain_insert_cons, if_neg hq, ih hrest]
    rfl

/-- After an insert of `key` into a chain that held `key` once, the nodes with that key
are the one overwritten node: it holds the new value, through the caller's pointer. -/
theorem chain_insert_overwrites (key value : CString) (chain : List LinkedPair)
    (hnd : (keys chain).Nodup) (hK : key ∈ keys chain) :
    (chain_insert key value chain).filter (fun p => decide (p.key = key))
      = [{ key := key, value := value, value_owned := false }] := by
  induction chain with
  | nil => simp [keys] at hK
  | cons q chain ih =>
    have hnd' : q.key ∉ keys chain ∧ (keys chain).Nodup := by
      simpa [keys] using hnd
    rw [chain_insert_cons]
    by_cases h : q.key = key
    · have hrest : chain.filter (fun p => decide (p.key = key)) = [] := by
        rw [List.filter_eq_nil_iff]
        intro r hr hk
        exact hnd'.1 (List.mem_map.2 ⟨r, hr, by rw [h]; simpa using hk⟩)
      rw [if_pos h, List.filter_cons, if_pos (by simpa using h), hrest, h]
    · have hK' : key ∈ keys chain := by
        rcases List.mem_cons.1 (show key ∈ q.key :: keys chain from hK) with e | e
        · exact absurd e.symm h
        · exact e
      rw [if_neg h, List.filter_cons, if_neg (by simpa using h)]
      exact ih hnd'.2 hK'

theorem flatten_set_perm (l : List (List LinkedPair)) (i : Nat) (c : List LinkedPair)
    (p : LinkedPair) (hi : i < l.length) (hc : c.Perm (p :: l.getD i [])) :
    ((l.set i c).flatten).Perm (p :: l.flatten) := by
  induction l generalizing i with
  | nil => cases hi
  | cons a l ih =>
    cases i with
    | zero =>
      have hc' : c.Perm (p :: a) := hc
      simpa using hc'.append_right l.flatten
    | succ i =>
      have hrec := ih i (Nat.lt_of_succ_lt_succ hi) hc
      have h1 : (a ++ (l.set i c).flatten).Perm (a ++ p :: l.flatten) :=
        hrec.append_left a
      have h2 : (a ++ p :: l.flatten).Perm (p :: (a ++ l.flatten)) := List.perm_middle
      simpa using h1.trans h2

theorem insert_entries_perm (t : HashTable) (hv : t.Valid) (K V : CString)
    (hK : K ∉ keys (entries t)) :
    (entries (hash_table_insert t K V)).Perm (create_pair K V :: entries t) := by
  have hb : K ∉ keys (t.bucket (hash K t.capacity)) := by
    intro h
    obtain ⟨q, hq, hqk⟩ := List.mem_map.1 h
    exact hK (List.mem_map.2 ⟨q, bucket_subset_flatten t _ q hq, hqk⟩)
  unfold entries
  rw [insert_storage, chain_insert_absent K V _ hb]
  exact flatten_set_perm _ _ _ _ (hash_lt_length t hv K) (List.perm_append_singleton _ _)

theorem insert_all_entries_perm (nodes : List LinkedPair) (t : HashTable) (hv : t.Valid)
    (hnd : (keys nodes).Nodup) (hnew : ∀ k ∈ keys nodes, k ∉ keys (entries t))
    (hown : ∀ n ∈ nodes, n.value_owned = true) :
    (entries (insert_all t nodes)).Perm (entries t ++ nodes) := by
  induction nodes generalizing t with
  | nil => simp [insert_all]
  | cons node rest ih =>
    have hnd' : node.key ∉ keys rest ∧ (keys rest).Nodup := by
      simpa [keys] using hnd
    have hnode : node.key ∉ keys (entries t) := hnew node.key (by simp [keys])
    have hstep := insert_entries_perm t hv node.key node.value hnode
    have hnode_eq : create_pair node.key node.value = node := by
      have ho := hown node (List.mem_cons_self _ _)
      cases node
      simp only [create_pair] at *
      rw [ho]
    rw [hnode_eq] at hstep
    have hnew' : ∀ k ∈ keys rest,
        k ∉ keys (entries (hash_table_insert t node.key node.value)) := by
      intro k hk hmem
      have hmem' : k ∈ keys (node :: entries t) := (hstep.map LinkedPair.key).mem_iff.1 hmem
      rcases List.mem_cons.1 hmem' with h | h
      · exact hnd'.1 (h ▸ hk)
      · exact hnew k (List.mem_cons_of_mem _ hk) h
    have hrec := ih (hash_table_insert t node.key node.value)
      (insert_valid t node.key node.value hv) hnd'.2 hnew'
      (fun n hn => hown n (List.mem_cons_of_mem _ hn))
    have h1 : (entries (hash_table_insert t node.key node.value) ++ rest).Perm
        ((node :: entries t) ++ rest) := hstep.append_right rest
    have h2 : ((node :: entries t) ++ rest).Perm (entries t ++ node :: rest) := by
      simpa using (@List.perm_middle _ node (entries t) rest).symm
    exact hrec.trans (h1.trans h2)

theorem count_keys (K : CString) (l : List LinkedPair) :
    @List.count CString instBEqOfDecidableEq K (keys l)
      = (l.filter (fun p => decide (p.key = K))).length := by
  induction l with
  | nil => rfl
  | cons q l ih =>
    have ih' : @List.count CString instBEqOfDecidableEq K (List.map LinkedPair.key l)
        = (l.filter (fun p => decide (p.key = K))).length := ih
    by_cases h : q.key = K
    · simp [keys, List.filter_cons, h, ih']
    · simp [keys, List.filter_cons, h, ih', List.count_cons]

/-- In a table that satisfies the invariant no key is stored twice, over all chains. -/
theorem inv_keys_nodup (ht : HashTable) (hi : Inv ht) : (keys (entries ht)).Nodup := by
  rw [List.nodup_iff_count_le_one]
  intro K
  unfold entries
  rw [count_keys, inv_filter_flatten ht hi K, ← count_keys]
  exact List.nodup_iff_count_le_one.1 (hi.nodup _) K

theorem replicate_nil_flatten (n : Nat) :
    (List.replicate n ([] : List LinkedPair)).flatten = [] := by
  induction n with
  | zero => rfl
  | succ n ih => rw [List.replicate_succ, List.flatten_cons, ih]; rfl

/-! ### Resizing a table whose nodes own their values -/

theorem wrap32_double (ht : HashTable) (hv : ht.Valid) (h2 : ht.capacity * 2 ≤ INT_MAX) :
    wrap32 (ht.capacity * 2) = ht.capacity * 2 := by
  apply wrap32_id _ _ h2
  have := hv.1
  unfold INT_MIN
  omega

/-- On a table that satisfies the invariant, whose nodes own their values and whose
doubled capacity is an `int`, the resize returns a table of the doubled capacity on
which every lookup gives what it gave on the old table. -/
theorem resize_owned_keeps_values (ht : HashTable) (hi : Inv ht)
    (h2 : ht.capacity * 2 ≤ INT_MAX) (ho : AllOwned ht) :
    ∃ ht', hash_table_resize ht = .ok (some ht') ∧ ht'.capacity = 2 * ht.capacity ∧
      ∀ K, hash_table_retrieve ht' K = hash_table_retrieve ht K := by
  have hw := wrap32_double ht hi.valid h2
  have h1 : 1 ≤ wrap32 (ht.capacity * 2) := by
    have := hi.valid.1
    omega
  refine ⟨_, resize_eq ht hi.valid h1 ho, ?_, ?_⟩
  · rw [insert_all_capacity]
    show wrap32 (ht.capacity * 2) = 2 * ht.capacity
    omega
  · intro K
    have hfresh := create_inv _ _ (wrap32_range (ht.capacity * 2)).2 (create_eq _ h1)
    rw [retrieve_insert_all _ _ K hfresh.valid, retrieve_fresh]
    exact inv_lookup_last ht hi K

/-- Under the same conditions the nodes of the new table are a rearrangement of the
nodes of the old one. -/
theorem resize_owned_keeps_entries (ht : HashTable) (hi : Inv ht)
    (h2 : ht.capacity * 2 ≤ INT_MAX) (ho : AllOwned ht) :
    ∃ ht', hash_table_resize ht = .ok (some ht') ∧ (entries ht').Perm (entries ht) := by
  have hw := wrap32_double ht hi.valid h2
  have h1 : 1 ≤ wrap32 (ht.capacity * 2) := by
    have := hi.valid.1
    omega
  have hfresh := create_inv _ _ (wrap32_range (ht.capacity * 2)).2 (create_eq _ h1)
  have hperm := insert_all_entries_perm (entries ht) _ hfresh.valid (inv_keys_nodup ht hi)
    (by
      intro k _ hk
      simp only [entries, replicate_nil_flatten, keys, List.map_nil] at hk
      cases hk)
    ho
  rw [show entries
    { capacity := wrap32 (ht.capacity * 2), count := 0,
      storage := List.replicate (wrap32 (ht.capacity * 2)).toNat [] } = []
    from replicate_nil_flatten _, List.nil_append] at hperm
  exact ⟨_, resize_eq ht hi.valid h1 ho, hperm⟩

/-- The scenario of `main`: every node of its table owns its value, the resize returns
the table of capacity 4 with the three values, and teardown hands the three nodes to
`destroy_pair` bucket by bucket. -/
theorem demo_table_resize_and_destroy :
    (hash_table_resize demo_table).map (Option.map HashTable.capacity) = .ok (some 4) ∧
    (hash_table_resize demo_table).map
        (Option.map (fun t => [hash_table_retrieve t (str "line_1"),
          hash_table_retrieve t (str "line_2"), hash_table_retrieve t (str "line_3")]))
      = .ok (some [some (str "Tiny hash table\n"), some (str "Filled beyond capacity\n"),
          some (str "Linked list saves the day!\n")]) ∧
    destroy_hash_table demo_table
      = .ok [create_pair (str "line_2") (str "Filled beyond capacity\n"),
             create_pair (str "line_1") (str "Tiny hash table\n"),
             create_pair (str "line_3") (str "Linked list saves the day!\n")] := by
  decide

/-! ### The claims -/

/-- C1: for every `int` capacity of at least 1, `create_hash_table` returns a table, and
inserting `(K, V)` into it and then retrieving `K` finds `V`. -/
theorem insert_then_retrieve_on_empty (capacity : Int) (K V : CString)
    (h1 : 1 ≤ capacity) (h2 : capacity ≤ INT_MAX) :
    ∃ ht, create_hash_table capacity = some ht ∧
      hash_table_retrieve (hash_table_insert ht K V) K = some V := by
  refine ⟨_, create_eq capacity h1, ?_⟩
  exact retrieve_insert_same _ K V (create_inv capacity _ h2 (create_eq capacity h1)).valid

theorem insert_then_retrieve_on_empty_witness :
    (1 : Int) ≤ 2 ∧ (2 : Int) ≤ INT_MAX ∧
    ∃ ht, create_hash_table 2 = some ht ∧
      hash_table_retrieve (hash_table_insert ht (str "line_1") (str "A")) (str "line_1")
        = some (str "A") :=
  ⟨by decide, by decide,
    insert_then_retrieve_on_empty 2 (str "line_1") (str "A") (by decide) (by decide)⟩

/-- C2: in a reachable table, inserting `K` with `V1` and then with `V2` leaves exactly
one node with key `K` over all chains, which holds `V2` (through the pointer the second
call was given); retrieving `K` finds `V2`; and `count` is what it was after the first
insert. -/
theorem insert_twice_overwrites (ht : HashTable) (hr : Reachable ht) (K V1 V2 : CString) :
    entries_with_key (hash_table_insert (hash_table_insert ht K V1) K V2) K
        = [{ key := K, value := V2, value_owned := false }] ∧
    hash_table_retrieve (hash_table_insert (hash_table_insert ht K V1) K V2) K = some V2 ∧
    (hash_table_insert (hash_table_insert ht K V1) K V2).count
        = (hash_table_insert ht K V1).count := by
  have hi0 := reachable_inv ht hr
  have hi1 : Inv (hash_table_insert ht K V1) := insert_inv ht K V1 hi0
  have hi2 := insert_inv _ K V2 hi1
  have hret := retrieve_insert_same (hash_table_insert ht K V1) K V2 hi1.valid
  refine ⟨?_, hret, ?_⟩
  · unfold entries_with_key
    rw [inv_filter_flatten _ hi2 K, insert_capacity (hash_table_insert ht K V1) K V2,
      insert_bucket _ K V2 hi1.valid, if_pos rfl]
    apply chain_insert_overwrites K V2 _ (hi1.nodup _)
    rw [insert_capacity, insert_bucket ht K V1 hi0.valid, if_pos rfl, chain_insert_keys]
    split
    · assumption
    · simp
  · rw [insert_count, if_neg]
    rw [insert_capacity, insert_bucket ht K V1 hi0.valid, if_pos rfl]
    exact chain_insert_ne_nil K V1 _

theorem insert_twice_overwrites_witness :
    Reachable demo_table ∧
    entries_with_key
        (hash_table_insert (hash_table_insert demo_table (str "line_3") (str "x"))
          (str "line_3") (str "y")) (str "line_3")
        = [{ key := str "line_3", value := str "y", value_owned := false }] ∧
    hash_table_retrieve
        (hash_table_insert (hash_table_insert demo_table (str "line_3") (str "x"))
          (str "line_3") (str "y")) (str "line_3") = some (str "y") ∧
    (hash_table_insert (hash_table_insert demo_table (str "line_3") (str "x"))
          (str "line_3") (str "y")).count
        = (hash_table_insert demo_table (str "line_3") (str "x")).count :=
  have hr : Reachable demo_table :=
    Reachable.insert _ _ _ (Reachable.insert _ _ _ (Reachable.insert _ _ _
      (Reachable.create 2 empty_2 (by decide) (by decide) (by decide))))
  ⟨hr, insert_twice_overwrites demo_table hr (str "line_3") (str "x") (str "y")⟩

/-- C3 (the code at the failing inputs): at capacity 1, after `insert("a","1")` the call
`remove("a")` empties the chain but leaves `count` at 1; and after `insert("a","1")`,
`insert("b","2")` the call `remove("b")` drops the node of `"a"`, so that `"b"` is still
found and `count` is still 1. -/
theorem remove_stored_key_eval :
    create_hash_table 1 = some empty_1 ∧
    (hash_table_insert empty_1 (str "a") (str "1")).count = 1 ∧
    hash_table_remove (hash_table_insert empty_1 (str "a") (str "1")) (str "a")
      = .ok { capacity := 1, count := 1, storage := [[]] } ∧
    hash_table_retrieve { capacity := 1, count := 1, storage := [[]] } (str "a") = none ∧
    (hash_table_insert (hash_table_insert empty_1 (str "a") (str "1"))
      (str "b") (str "2")).count = 1 ∧
    hash_table_remove
        (hash_table_insert (hash_table_insert empty_1 (str "a") (str "1")) (str "b") (str "2"))
        (str "b")
      = .ok { capacity := 1, count := 1, storage := [[create_pair (str "b") (str "2")]] } ∧
    hash_table_retrieve
        { capacity := 1, count := 1, storage := [[create_pair (str "b") (str "2")]] } (str "b")
      = some (str "2") := by
  decide

/-- C4 (the code at the failing input): at capacity 1, after `insert("a","1")` the key
`"b"` is not stored, yet `remove("b")` drops the node of `"a"` from the chain. -/
theorem remove_absent_key_eval :
    (hash_table_insert empty_1 (str "a") (str "1")).storage
      = [[create_pair (str "a") (str "1")]] ∧
    hash_table_retrieve (hash_table_insert empty_1 (str "a") (str "1")) (str "b") = none ∧
    hash_table_remove (hash_table_insert empty_1 (str "a") (str "1")) (str "b")
      = .ok { capacity := 1, count := 1, storage := [[]] } := by
  decide

/-- C5 (the code at the failing inputs): at capacity 1, after `insert("a","1")` and
`insert("b","2")` the chain holds two nodes while `count` is 1; and after
`insert("a","1")` and `remove("a")` no node is left while `count` is 1. -/
theorem count_differs_from_entries_eval :
    (hash_table_insert (hash_table_insert empty_1 (str "a") (str "1"))
      (str "b") (str "2")).count = 1 ∧
    entry_count (hash_table_insert (hash_table_insert empty_1 (str "a") (str "1"))
      (str "b") (str "2")) = 2 ∧
    (hash_table_remove (hash_table_insert empty_1 (str "a") (str "1")) (str "a")).map
        (fun t => (t.count, entry_count t)) = .ok (1, 0) := by
  decide

/-- C6 (the code at the failing input): the table built by `create_hash_table(2)`,
`insert("line_1","A")`, `insert("line_1","B")` is reachable, has capacity 2 and gives
`"B"` for `"line_1"`; its node holds the caller's pointer. The loops of
`hash_table_resize` build the table of capacity 4 holding a copy of the pair, but the
closing `destroy_hash_table` calls `free` on the caller's pointer, so the resize returns
no table. -/
theorem resize_after_overwrite_eval :
    Reachable overwritten_line_1 ∧
    overwritten_line_1.capacity = 2 ∧ overwritten_line_1.capacity * 2 ≤ INT_MAX ∧
    hash_table_retrieve overwritten_line_1 (str "line_1") = some (str "B") ∧
    overwritten_line_1.storage
      = [[], [{ key := str "line_1", value := str "B", value_owned := false }]] ∧
    resize_migrate overwritten_line_1
      = .ok (some { capacity := 4, count := 1,
                    storage := [[], [create_pair (str "line_1") (str "B")], [], []] }) ∧
    destroy_hash_table overwritten_line_1 = .error .invalidFree ∧
    hash_table_resize overwritten_line_1 = .error .invalidFree :=
  ⟨Reachable.insert _ _ _ (Reachable.insert _ _ _
      (Reachable.create 2 empty_2 (by decide) (by decide) (by decide))),
    by decide, by decide, by decide, by decide, by decide, by decide, by decide⟩

/-- C7: for every table and key `K`, `hash_table_retrieve` gives not-found exactly when
no node of the bucket `K` hashes to has key `K`; otherwise it gives the value of the
first node of that chain with key `K`; when that value is the empty string the result is
the found empty string, which is not the not-found result. -/
theorem retrieve_first_match_or_not_found (ht : HashTable) (K : CString) :
    (hash_table_retrieve ht K = none ↔
      ∀ p ∈ ht.bucket (hash K ht.capacity), p.key ≠ K) ∧
    (∀ pre p post, ht.bucket (hash K ht.capacity) = pre ++ p :: post →
      p.key = K → (∀ q ∈ pre, q.key ≠ K) → hash_table_retrieve ht K = some p.value) ∧
    (∀ pre p post, ht.bucket (hash K ht.capacity) = pre ++ p :: post →
      p.key = K → (∀ q ∈ pre, q.key ≠ K) → p.value = [] →
      hash_table_retrieve ht K = some [] ∧ hash_table_retrieve ht K ≠ none) := by
  refine ⟨?_, ?_, ?_⟩
  · rw [retrieve_eq_scan]
    exact retrieve_scan_eq_none K _
  · intro pre p post hb hp hpre
    rw [retrieve_eq_scan, hb]
    exact retrieve_scan_first K pre p post hp hpre
  · intro pre p post hb hp hpre hv
    have h : hash_table_retrieve ht K = some [] := by
      rw [retrieve_eq_scan, hb, ← hv]
      exact retrieve_scan_first K pre p post hp hpre
    exact ⟨h, by rw [h]; exact Option.some_ne_none _⟩

theorem retrieve_first_match_or_not_found_witness :
    hash_table_retrieve (hash_table_insert empty_1 (str "k") []) (str "k") = some [] ∧
    hash_table_retrieve (hash_table_insert empty_1 (str "k") []) (str "k") ≠ none :=
  (retrieve_first_match_or_not_found (hash_table_insert empty_1 (str "k") []) (str "k")).2.2
    [] (create_pair (str "k") []) [] (by decide) rfl (fun _ h => nomatch h) rfl

/-- C8: for every capacity, `create_hash_table` returns no table exactly when the
capacity is below 1; otherwise it returns a table with that capacity, with exactly
that many bucket slots, all of them empty, and with `count = 0`. -/
theorem create_fails_iff_capacity_below_one (capacity : Int) :
    (create_hash_table capacity = none ↔ capacity < 1) ∧
    (1 ≤ capacity → ∃ ht, create_hash_table capacity = some ht ∧
      ht.capacity = capacity ∧ (ht.storage.length : Int) = capacity ∧
      (∀ chain ∈ ht.storage, chain = []) ∧ ht.count = 0) := by
  refine ⟨?_, ?_⟩
  · unfold create_hash_table
    by_cases h : capacity < 1 <;> simp [h]
  · intro h1
    refine ⟨_, create_eq capacity h1, rfl, ?_, ?_, rfl⟩
    · simp only [List.length_replicate]
      omega
    · intro chain hc
      exact (List.mem_replicate.1 hc).2

theorem create_fails_iff_capacity_below_one_witness :
    create_hash_table 0 = none ∧
    ∃ ht, create_hash_table 2 = some ht ∧
      ht.capacity = 2 ∧ (ht.storage.length : Int) = 2 ∧
      (∀ chain ∈ ht.storage, chain = []) ∧ ht.count = 0 :=
  ⟨(create_fails_iff_capacity_below_one 0).1.2 (by decide),
    (create_fails_iff_capacity_below_one 2).2 (by decide)⟩

/-- C9: for every key of non-zero bytes and every `int` `max` of at least 1, `hash`
returns `A mod max`, where `A` starts at 5381 and is folded as `(A * 33 + c) mod 2^64`
over the bytes of the key; the result lies in `[0, max)`, and the empty key hashes to
`5381 mod max`. -/
theorem hash_is_djb2_mod_max (key : CString) (max : Int) (hkey : ∀ c ∈ key, c ≠ 0)
    (h1 : 1 ≤ max) (h2 : max ≤ INT_MAX) :
    (hash key max : Int) = (djb2 key : Int) % max ∧
    0 ≤ (hash key max : Int) ∧ (hash key max : Int) < max ∧
    (hash [] max : Int) = 5381 % max := by
  have hlt := hash_lt key max h1 h2
  have hconv : ∀ n : Nat, ((n % max.toNat : Nat) : Int) = (n : Int) % max := by
    intro n
    rw [Int.natCast_mod, Int.toNat_of_nonneg (by omega)]
  refine ⟨?_, by omega, by omega, ?_⟩
  · rw [hash_eq_mod key max h1 h2, hash_loop_eq_foldl key hkey 5381 (by decide), hconv]
    rfl
  · rw [hash_eq_mod [] max h1 h2, hconv]
    rfl

theorem hash_is_djb2_mod_max_witness :
    (∀ c ∈ str "line_1", c ≠ 0) ∧ (1 : Int) ≤ 2 ∧ (2 : Int) ≤ INT_MAX ∧
    (hash (str "line_1") 2 : Int) = (djb2 (str "line_1") : Int) % 2 ∧
    0 ≤ (hash (str "line_1") 2 : Int) ∧ (hash (str "line_1") 2 : Int) < 2 ∧
    (hash [] 2 : Int) = 5381 % 2 :=
  ⟨by decide, by decide, by decide,
    hash_is_djb2_mod_max (str "line_1") 2 (by decide) (by decide) (by decide)⟩

/-- C10: in every reachable table each node of the chain of bucket `i` has a key that
hashes to `i`, so two nodes with the same key sit in the same bucket. -/
theorem bucket_placement (ht : HashTable) (hr : Reachable ht) :
    (∀ i, ∀ p ∈ ht.bucket i, hash p.key ht.capacity = i) ∧
    (∀ i j, ∀ p ∈ ht.bucket i, ∀ q ∈ ht.bucket j, p.key = q.key → i = j) := by
  have hi := reachable_inv ht hr
  refine ⟨hi.placed, ?_⟩
  intro i j p hp q hq hk
  rw [← hi.placed i p hp, ← hi.placed j q hq, hk]

theorem bucket_placement_witness :
    Reachable demo_table ∧
    (∀ i, ∀ p ∈ demo_table.bucket i, hash p.key demo_table.capacity = i) ∧
    (∀ i j, ∀ p ∈ demo_table.bucket i, ∀ q ∈ demo_table.bucket j, p.key = q.key → i = j) :=
  have hr : Reachable demo_table :=
    Reachable.insert _ _ _ (Reachable.insert _ _ _ (Reachable.insert _ _ _
      (Reachable.create 2 empty_2 (by decide) (by decide) (by decide))))
  ⟨hr, bucket_placement demo_table hr⟩

/-- C11: in every reachable table no chain holds two nodes with the same key, and for
every stored node the nodes with its key, over all chains, are that one node. -/
theorem key_uniqueness (ht : HashTable) (hr : Reachable ht) :
    (∀ i, (keys (ht.bucket i)).Nodup) ∧
    (∀ p ∈ entries ht, entries_with_key ht p.key = [p]) := by
  have hi := reachable_inv ht hr
  refine ⟨hi.nodup, ?_⟩
  intro p hp
  obtain ⟨i, hpi⟩ := mem_flatten_bucket ht p hp
  have hidx : hash p.key ht.capacity = i := hi.placed i p hpi
  unfold entries_with_key
  rw [inv_filter_flatten ht hi p.key, hidx]
  exact filter_key_single _ (hi.nodup i) p hpi

theorem key_uniqueness_witness :
    Reachable demo_table ∧
    (∀ i, (keys (demo_table.bucket i)).Nodup) ∧
    (∀ p ∈ entries demo_table, entries_with_key demo_table p.key = [p]) :=
  have hr : Reachable demo_table :=
    Reachable.insert _ _ _ (Reachable.insert _ _ _ (Reachable.insert _ _ _
      (Reachable.create 2 empty_2 (by decide) (by decide) (by decide))))
  ⟨hr, key_uniqueness demo_table hr⟩

/-- C12 (the code at the failing inputs): after `create_hash_table(1)`, `insert("a","1")`,
`insert("a","2")` the copy of `"1"` made by the first call has no pointer left to it,
and the one node holds the caller's pointer to `"2"`; `destroy_pair` on that node calls
`free` on a buffer the table does not own, so `destroy_hash_table` does not complete.
On the chain `a, b` with such a head the teardown stops at the head and never reaches
the node of `"b"`. -/
theorem destroy_after_overwrite_eval :
    Reachable overwritten_a ∧
    hash_table_insert_lost (hash_table_insert empty_1 (str "a") (str "1")) (str "a")
      = some (str "1") ∧
    overwritten_a.storage
      = [[{ key := str "a", value := str "2", value_owned := false }]] ∧
    destroy_pair { key := str "a", value := str "2", value_owned := false }
      = .error .invalidFree ∧
    destroy_hash_table overwritten_a = .error .invalidFree ∧
    overwritten_ab.storage
      = [[{ key := str "a", value := str "3", value_owned := false },
          create_pair (str "b") (str "2")]] ∧
    destroy_hash_table overwritten_ab = .error .invalidFree :=
  ⟨Reachable.insert _ _ _ (Reachable.insert _ _ _
      (Reachable.create 1 empty_1 (by decide) (by decide) (by decide))),
    by decide, by decide, by decide, by decide, by decide, by decide⟩

/-- C13: on a table laid out with `capacity` slots, `hash_table_insert(K, V)` turns
the chain of bucket `i = hash(K, capacity)` into the old chain with `(K, V)` appended
when no node of it had key `K`, and otherwise into the old chain with the value of the
first node with key `K` replaced by `V` (the pointer the call was given); the other
buckets and the capacity stay. -/
theorem insert_changes_one_chain (ht : HashTable) (hv : ht.Valid) (K V : CString) :
    (K ∉ keys (ht.bucket (hash K ht.capacity)) →
      (hash_table_insert ht K V).bucket (hash K ht.capacity)
        = ht.bucket (hash K ht.capacity) ++ [create_pair K V]) ∧
    (∀ pre p post, ht.bucket (hash K ht.capacity) = pre ++ p :: post →
      p.key = K → K ∉ keys pre →
      (hash_table_insert ht K V).bucket (hash K ht.capacity)
        = pre ++ { p with value := V, value_owned := false } :: post) ∧
    (∀ j, j ≠ hash K ht.capacity → (hash_table_insert ht K V).bucket j = ht.bucket j) ∧
    (hash_table_insert ht K V).capacity = ht.capacity := by
  refine ⟨?_, ?_, ?_, insert_capacity ht K V⟩
  · intro h
    rw [insert_bucket ht K V hv, if_pos rfl]
    exact chain_insert_absent K V _ h
  · intro pre p post hb hp hpre
    rw [insert_bucket ht K V hv, if_pos rfl, hb]
    exact chain_insert_present K V pre p post hp hpre
  · intro j hj
    rw [insert_bucket ht K V hv, if_neg (fun e => hj e.symm)]

theorem insert_changes_one_chain_witness :
    demo_table.Valid ∧
    (demo_table.bucket (hash (str "line_4") demo_table.capacity)
      = [create_pair (str "line_2") (str "Filled beyond capacity\n")]) ∧
    (hash_table_insert demo_table (str "line_4") (str "D")).bucket
        (hash (str "line_4") demo_table.capacity)
      = [create_pair (str "line_2") (str "Filled beyond capacity\n"),
         create_pair (str "line_4") (str "D")] ∧
    (hash_table_insert demo_table (str "line_3") (str "D")).bucket
        (hash (str "line_3") demo_table.capacity)
      = [create_pair (str "line_1") (str "Tiny hash table\n"),
         { key := str "line_3", value := str "D", value_owned := false }] ∧
    (∀ j, j ≠ hash (str "line_4") demo_table.capacity →
      (hash_table_insert demo_table (str "line_4") (str "D")).bucket j
        = demo_table.bucket j) ∧
    (hash_table_insert demo_table (str "line_4") (str "D")).capacity = demo_table.capacity :=
  have hv : demo_table.Valid := ⟨by decide, by decide, by decide⟩
  ⟨hv, by decide,
    (insert_changes_one_chain demo_table hv (str "line_4") (str "D")).1 (by decide),
    (insert_changes_one_chain demo_table hv (str "line_3") (str "D")).2.1
      [create_pair (str "line_1") (str "Tiny hash table\n")]
      (create_pair (str "line_3") (str "Linked list saves the day!\n")) []
      (by decide) rfl (by decide),
    (insert_changes_one_chain demo_table hv (str "line_4") (str "D")).2.2.1,
    (insert_changes_one_chain demo_table hv (str "line_4") (str "D")).2.2.2⟩

/-- C14 (the code at the failing input): at capacity 1, after `insert("a","1")` the key
`"b"` is not stored and `count` is 1; `insert("b","2")` appends the node of `"b"` at the
tail of the chain and `count` is still 1. -/
theorem insert_tail_keeps_count_eval :
    Reachable (hash_table_insert empty_1 (str "a") (str "1")) ∧
    (hash_table_insert empty_1 (str "a") (str "1")).count = 1 ∧
    entries_with_key (hash_table_insert empty_1 (str "a") (str "1")) (str "b") = [] ∧
    (hash_table_insert (hash_table_insert empty_1 (str "a") (str "1"))
      (str "b") (str "2")).storage
      = [[create_pair (str "a") (str "1"), create_pair (str "b") (str "2")]] ∧
    (hash_table_insert (hash_table_insert empty_1 (str "a") (str "1"))
      (str "b") (str "2")).count = 1 :=
  ⟨Reachable.insert _ _ _ (Reachable.create 1 empty_1 (by decide) (by decide) (by decide)),
    by decide, by decide, by decide, by decide⟩

/-- C15 (the code at the failing input): at capacity 1 with the chain `a, b`, the call
`remove("b")` unlinks the node of `"a"` and keeps the node of `"b"`: retrieving `"a"`
gave `"1"` before the call and gives not-found after it, and `"b"` is still found. -/
theorem remove_unlinks_other_key_eval :
    chain_ab.storage = [[create_pair (str "a") (str "1"), create_pair (str "b") (str "2")]] ∧
    hash_table_retrieve chain_ab (str "a") = some (str "1") ∧
    hash_table_remove chain_ab (str "b")
      = .ok { capacity := 1, count := 1, storage := [[create_pair (str "b") (str "2")]] } ∧
    hash_table_retrieve
        { capacity := 1, count := 1, storage := [[create_pair (str "b") (str "2")]] } (str "a")
      = none ∧
    hash_table_retrieve
        { capacity := 1, count := 1, storage := [[create_pair (str "b") (str "2")]] } (str "b")
      = some (str "2") := by
  decide

/-- C17: on a table laid out with `capacity >= 1` slots (nothing is asked of its chains),
retrieving `K'` after `hash_table_insert(K, V)` gives `V` when `K' = K` and what it gave
before the insert when `K'` differs from `K`. -/
theorem insert_map_law (ht : HashTable) (hv : ht.Valid) (K K' V : CString) :
    (K' = K → hash_table_retrieve (hash_table_insert ht K V) K' = some V) ∧
    (K' ≠ K →
      hash_table_retrieve (hash_table_insert ht K V) K' = hash_table_retrieve ht K') := by
  refine ⟨?_, ?_⟩
  · intro h
    rw [h]
    exact retrieve_insert_same ht K V hv
  · intro h
    exact retrieve_insert_other ht K V K' hv h

theorem insert_map_law_witness :
    dup_table.Valid ∧
    hash_table_retrieve (hash_table_insert dup_table (str "b") (str "3")) (str "b")
      = some (str "3") ∧
    hash_table_retrieve (hash_table_insert dup_table (str "b") (str "3")) (str "a")
      = hash_table_retrieve dup_table (str "a") :=
  have hv : dup_table.Valid := ⟨by decide, by decide, by decide⟩
  ⟨hv, (insert_map_law dup_table hv (str "b") (str "b") (str "3")).1 rfl,
    (insert_map_law dup_table hv (str "b") (str "a") (str "3")).2 (by decide)⟩

/-- C20 (the code at the failing input): the table built by `create_hash_table(1)`,
`insert("a","1")`, `insert("b","2")`, `insert("a","3")` is reachable and holds the two
pairs `("a","3")` and `("b","2")`. The loops of `hash_table_resize` build the table of
capacity 2 holding copies of both pairs, but the closing `destroy_hash_table` calls
`free` on the caller's pointer to `"3"`, so the resize returns no table. -/
theorem resize_loses_table_eval :
    Reachable overwritten_ab ∧ overwritten_ab.capacity * 2 ≤ INT_MAX ∧
    entries overwritten_ab
      = [{ key := str "a", value := str "3", value_owned := false },
         create_pair (str "b") (str "2")] ∧
    resize_migrate overwritten_ab
      = .ok (some { capacity := 2, count := 2,
                    storage := [[create_pair (str "a") (str "3")],
                                [create_pair (str "b") (str "2")]] }) ∧
    hash_table_resize overwritten_ab = .error .invalidFree :=
  ⟨Reachable.insert _ _ _ (Reachable.insert _ _ _ (Reachable.insert _ _ _
      (Reachable.create 1 empty_1 (by decide) (by decide) (by decide)))),
    by decide, by decide, by decide, by decide⟩

end HashTables
